import Mathlib

/-!
Verification of the PowerVector repository's growable sequence container.

The canonical source is `src/include/xvc/XVector.h` (class `xvc::XVector<T>`);
the earlier `dynamicArray` variants are strict subsets of it.  The container
state is three fields: `size_ : size_t`, `capacity_ : size_t`, and an owned
buffer `data_ : T*` whose prefix `[0, size_)` holds the live elements.

Shallow embedding conventions:
* `size_t` values are `Nat`; arithmetic that can wrap in C++ is taken
  `% USIZE` with `USIZE = 2 ^ 64` exactly where the source can overflow
  (`nextPowerOf2`'s final `n + 1`, `capacity_ * 2`, `size_ + other.size_`,
  `--size_`, `++size_`).
* the buffer is an `Option (List A)`: `none` is a null `data_` pointer (the
  moved-from state) and `some l` is a buffer whose constructed live prefix
  is exactly `l`.
* operations are translated branch by branch from the source on their
  success path; the one operation whose failure path matters for the claims
  (copy assignment with a throwing element copy constructor) is modelled
  separately with an explicit fallible copy function.
-/

/-- 2 ^ 64, the modulus of `size_t` arithmetic on the 64-bit platform the
source targets (`if constexpr (sizeof(size_t) > 4)` branch taken). -/
def USIZE : Nat := 2 ^ 64

/-- Bit-smearing step sequence of `XVector::nextPowerOf2` (XVector.h lines
123-129): after `--n`, the source ors `n` with its right shifts by
1, 2, 4, 8, 16 and (on 64-bit) 32. -/
def smear64 (m : Nat) : Nat :=
  let a := m ||| (m >>> 1)
  let b := a ||| (a >>> 2)
  let c := b ||| (b >>> 4)
  let d := c ||| (c >>> 8)
  let e := d ||| (d >>> 16)
  e ||| (e >>> 32)

/-- Translation of `XVector::nextPowerOf2` (XVector.h lines 119-131).
`if (n <= 1) return 1;` then decrement, smear, and return `n + 1`, which is
computed in `size_t` and therefore wraps modulo `2 ^ 64`. -/
def nextPowerOf2 (n : Nat) : Nat :=
  if n ≤ 1 then 1 else (smear64 (n - 1) + 1) % USIZE

/-- Helper for the smear proof: one `s ||| (s >>> c)` step widens the window
of set bits just below the most significant bit from `c` to `c + c`. -/
theorem smear_step {s L c : Nat}
    (h : ∀ i, i ≤ L → L < i + c → s.testBit i = true) :
    ∀ i, i ≤ L → L < i + (c + c) → (s ||| (s >>> c)).testBit i = true := by
  intro i hi hic
  rw [Nat.testBit_lor]
  rcases Nat.lt_or_ge L (i + c) with hcase | hcase
  · rw [h i hi hcase]
    exact Bool.true_or _
  · have h2 : s.testBit (c + i) = true := by
      rw [Nat.add_comm c i]
      exact h (i + c) hcase (by omega)
    rw [Nat.testBit_shiftRight, h2]
    exact Bool.or_true _

/-- Key smearing fact: for `0 < m < 2 ^ 64`, the six or-shift steps set every
bit at or below the most significant bit of `m`, producing
`2 ^ (log2 m + 1) - 1`. -/
theorem smear64_eq {m : Nat} (h1 : 0 < m) (h2 : m < 2 ^ 64) :
    smear64 m = 2 ^ (Nat.log 2 m + 1) - 1 := by
  set L := Nat.log 2 m with hLdef
  have hL1 : 2 ^ L ≤ m := Nat.pow_log_le_self 2 (Nat.pos_iff_ne_zero.mp h1)
  have hL2 : m < 2 ^ (L + 1) := Nat.lt_pow_succ_log_self (by norm_num) m
  have hL63 : L ≤ 63 := by
    by_contra hc
    push_neg at hc
    have hpow : (2 : Nat) ^ 64 ≤ 2 ^ L := Nat.pow_le_pow_right (by norm_num) (by omega)
    omega
  -- bit L of m is set
  have p1 : ∀ i, i ≤ L → L < i + 1 → m.testBit i = true := by
    intro i hi1 hi2
    have hiL : i = L := by omega
    have hdiv : m / 2 ^ i = 1 := by
      rw [hiL]
      apply Nat.div_eq_of_lt_le (by simpa using hL1)
      have hxp : (1 + 1) * 2 ^ L = 2 ^ (L + 1) := by ring
      omega
    rw [Nat.testBit_to_div_mod, hdiv]
    rfl
  -- the six smear steps
  have p2 := smear_step p1
  have p3 := smear_step p2
  have p4 := smear_step p3
  have p5 := smear_step p4
  have p6 := smear_step p5
  have p7 := smear_step p6
  have pAll : ∀ i, i ≤ L → (smear64 m).testBit i = true := by
    intro i hi
    exact p7 i hi (by omega)
  -- upper bound: every intermediate stays below 2 ^ (L + 1)
  have hor : ∀ x c : Nat, x < 2 ^ (L + 1) → x ||| (x >>> c) < 2 ^ (L + 1) := by
    intro x c hx
    refine Nat.or_lt_two_pow hx (lt_of_le_of_lt ?_ hx)
    rw [Nat.shiftRight_eq_div_pow]
    exact Nat.div_le_self _ _
  have hub : smear64 m < 2 ^ (L + 1) := by
    unfold smear64
    exact hor _ 32 (hor _ 16 (hor _ 8 (hor _ 4 (hor _ 2 (hor _ 1 hL2)))))
  -- conclude by bit extensionality
  apply Nat.eq_of_testBit_eq
  intro i
  rw [Nat.testBit_two_pow_sub_one]
  rcases le_or_lt i L with hi | hi
  · rw [pAll i hi]
    simp [Nat.lt_succ_of_le hi]
  · have hfalse : (smear64 m).testBit i = false := by
      apply Nat.testBit_lt_two_pow
      exact lt_of_lt_of_le hub (Nat.pow_le_pow_right (by norm_num) (by omega))
    rw [hfalse]
    have hni : ¬ i < L + 1 := by omega
    simp [hni]

/-- Closed form of `nextPowerOf2` on the non-wrapping range `2 ≤ n ≤ 2 ^ 63`. -/
theorem nextPowerOf2_eq_pow {n : Nat} (h1 : 2 ≤ n) (h2 : n ≤ 2 ^ 63) :
    nextPowerOf2 n = 2 ^ (Nat.log 2 (n - 1) + 1) := by
  have hm1 : 0 < n - 1 := by omega
  have h6364 : (2 : Nat) ^ 63 < 2 ^ 64 := by norm_num
  have hm2 : n - 1 < 2 ^ 64 := by omega
  have hL : Nat.log 2 (n - 1) ≤ 62 := by
    by_contra hc
    push_neg at hc
    have hpl : 2 ^ Nat.log 2 (n - 1) ≤ n - 1 := Nat.pow_log_le_self 2 (by omega)
    have hpow : (2 : Nat) ^ 63 ≤ 2 ^ Nat.log 2 (n - 1) :=
      Nat.pow_le_pow_right (by norm_num) (by omega)
    omega
  have hsm := smear64_eq hm1 hm2
  have hlt : 2 ^ (Nat.log 2 (n - 1) + 1) < USIZE := by
    have : 2 ^ (Nat.log 2 (n - 1) + 1) ≤ 2 ^ 63 :=
      Nat.pow_le_pow_right (by norm_num) (by omega)
    unfold USIZE
    omega
  have hpos : 0 < 2 ^ (Nat.log 2 (n - 1) + 1) := Nat.pos_pow_of_pos _ (by norm_num)
  unfold nextPowerOf2
  rw [if_neg (by omega), hsm]
  rw [Nat.sub_add_cancel hpos]
  exact Nat.mod_eq_of_lt hlt

/-- Specification of `nextPowerOf2` on the non-wrapping range: it is the
least power of two that is at least `n` (with value 1 for `n ≤ 1`). -/
theorem nextPowerOf2_correct (n : Nat) (h : n ≤ 2 ^ 63) :
    (∃ k, nextPowerOf2 n = 2 ^ k) ∧ n ≤ nextPowerOf2 n ∧
      ∀ m, (∃ k, m = 2 ^ k) → n ≤ m → nextPowerOf2 n ≤ m := by
  by_cases hn : n ≤ 1
  · have hval : nextPowerOf2 n = 1 := by unfold nextPowerOf2; rw [if_pos hn]
    refine ⟨⟨0, by simpa using hval⟩, by omega, ?_⟩
    rintro m ⟨k, rfl⟩ hm
    have : 0 < (2 : Nat) ^ k := Nat.pos_pow_of_pos _ (by norm_num)
    omega
  · push_neg at hn
    have h2n : 2 ≤ n := hn
    have hval := nextPowerOf2_eq_pow h2n h
    have hlow : 2 ^ Nat.log 2 (n - 1) ≤ n - 1 := Nat.pow_log_le_self 2 (by omega)
    have hhigh : n - 1 < 2 ^ (Nat.log 2 (n - 1) + 1) :=
      Nat.lt_pow_succ_log_self (by norm_num) (n - 1)
    refine ⟨⟨Nat.log 2 (n - 1) + 1, hval⟩, by rw [hval]; omega, ?_⟩
    rintro m ⟨k, rfl⟩ hm
    rw [hval]
    apply Nat.pow_le_pow_right (by norm_num)
    by_contra hc
    push_neg at hc
    have hk : k ≤ Nat.log 2 (n - 1) := by omega
    have hkk : (2 : Nat) ^ k ≤ 2 ^ Nat.log 2 (n - 1) :=
      Nat.pow_le_pow_right (by norm_num) hk
    omega

/-- State of an `xvc::XVector<T>` object: `size` is `size_`, `capacity` is
`capacity_`, and `data` is the buffer: `none` for a null `data_` pointer
(the moved-from state), `some l` for an owned buffer whose constructed live
prefix `[0, size_)` holds exactly the elements of `l`. -/
structure XVec (A : Type) where
  size : Nat
  capacity : Nat
  data : Option (List A)
deriving DecidableEq, Repr

/-- Live elements of the container (the constructed prefix; empty for a null
buffer). -/
def XVec.elems (v : XVec A) : List A := v.data.getD []

/-- Well-formedness: the recorded `size_` matches the number of live
elements in the buffer. -/
def XVec.wf (v : XVec A) : Prop := v.elems.length = v.size

instance (v : XVec A) : Decidable v.wf := by unfold XVec.wf; infer_instance

/-- Translation of the default constructor (XVector.h lines 197-199):
`size_ = 0`, `capacity_ = 1`, a 1-slot buffer with nothing constructed. -/
def XVec.defaultNew : XVec A := { size := 0, capacity := 1, data := some [] }

/-- State of the source object after a move (XVector.h lines 307-313 and
457-459): `size_ = 0`, `capacity_ = 0`, `data_ = nullptr`. -/
def XVec.movedFrom : XVec A := { size := 0, capacity := 0, data := none }

/-- Translation of `XVector(size_t count, const T& value)` (XVector.h lines
201-234): `size_ = count`, `capacity_ = nextPowerOf2(count)`, and all
`count` slots hold copies of `value` (the trivially-copyable path uses
`fillTrivial`, proved below to produce the same contents as the
element-wise placement-new paths). -/
def XVec.mkCount (count : Nat) (value : A) : XVec A :=
  { size := count, capacity := nextPowerOf2 count, data := some (List.replicate count value) }

/-- Translation of the array-reference constructor (lines 236-270) and the
initializer-list constructor (lines 315-337): `size_ = N`,
`capacity_ = nextPowerOf2(N)`, elements copied in order. -/
def XVec.fromList (l : List A) : XVec A :=
  { size := l.length, capacity := nextPowerOf2 l.length, data := some l }

/-- Translation of the copy constructor (lines 272-305): same `size_` and
`capacity_` as the source, a freshly allocated buffer holding copies of the
source's live elements. -/
def XVec.copyCtor (v : XVec A) : XVec A :=
  { size := v.size, capacity := v.capacity, data := some v.elems }

/-- Translation of `XVector::reallocate` (lines 148-195) on its success
path.  `newCap` is `capacity_ * 2` (or 1 from 0) when `doubleCap`, else
`nextPowerOf2(size_)`; the multiplication is `size_t` and wraps.  All live
elements are moved to the new buffer, the old buffer is destroyed and
released, and `data_`/`capacity_` are updated. -/
def XVec.reallocate (v : XVec A) (doubleCap : Bool) : XVec A :=
  let newCap := if doubleCap then (if v.capacity = 0 then 1 else v.capacity * 2 % USIZE)
    else nextPowerOf2 v.size
  { size := v.size, capacity := newCap, data := some v.elems }

/-- Translation of `XVector::append` (lines 512-526): reallocate with
doubling if `size_ >= capacity_`, construct the new element at slot
`size_`, then `++size_` (a `size_t` increment, hence mod `2 ^ 64`). -/
def XVec.append (v : XVec A) (x : A) : XVec A :=
  let w := if v.capacity ≤ v.size then v.reallocate true else v
  { w with size := (w.size + 1) % USIZE, data := some (w.elems ++ [x]) }

/-- Translation of `XVector::emplace_back` (lines 907-914): identical growth
and placement to `append`, with the element constructed in place from the
forwarded arguments (here the already-built element `x`). -/
def XVec.emplaceBack (v : XVec A) (x : A) : XVec A :=
  let w := if v.capacity ≤ v.size then v.reallocate true else v
  { w with size := (w.size + 1) % USIZE, data := some (w.elems ++ [x]) }

/-- Translation of `XVector::pop_back` (lines 528-540): the release build
does `--size_` unconditionally (`XVECTOR_EMPTY_CHECK` is a no-op outside
debug), a `size_t` decrement that wraps to `2 ^ 64 - 1` on an empty
container; when `size_ > 0` the element at slot `size_ - 1` is destroyed
(for trivially destructible element types the slot simply leaves the live
prefix). -/
def XVec.popBack (v : XVec A) : XVec A :=
  { v with size := if v.size = 0 then USIZE - 1 else v.size - 1,
           data := if v.size = 0 then v.data else v.data.map List.dropLast }

/-- Translation of `XVector::concatenate` (lines 542-656) on its success
path: no-op when `other` is empty; `newSize = size_ + other.size_` in
`size_t`; if `newSize > capacity_`, one reallocation to
`nextPowerOf2(newSize)` with `this`'s elements moved and `other`'s copied
after them; else `other`'s elements are copied in place after slot
`size_`.  The live prefix of the result is the first `newSize` constructed
slots. -/
def XVec.concatenate (a other : XVec A) : XVec A :=
  if other.size = 0 then a
  else if a.capacity < (a.size + other.size) % USIZE then
    { size := (a.size + other.size) % USIZE,
      capacity := nextPowerOf2 ((a.size + other.size) % USIZE),
      data := some ((a.elems
        ++ other.elems.take ((a.size + other.size) % USIZE - a.size)).take
          ((a.size + other.size) % USIZE)) }
  else
    { a with size := (a.size + other.size) % USIZE,
             data := some ((a.elems
               ++ other.elems.take ((a.size + other.size) % USIZE - a.size)).take
                 ((a.size + other.size) % USIZE)) }

/-- Translation of `XVector::clear` (lines 704-713): destroy all live
elements, `size_ = 0`, capacity and buffer kept. -/
def XVec.clear (v : XVec A) : XVec A :=
  { v with size := 0, data := v.data.map (fun _ => []) }

/-- Translation of `XVector::swap` (lines 715-720): wholesale exchange of
the three fields of the two containers. -/
def XVec.swapOp (a b : XVec A) : XVec A × XVec A := (b, a)

/-- Translation of `XVector::reserve` (lines 722-771): no-op unless
`space > capacity_`; otherwise allocate `nextPowerOf2(space)` slots, move
the live elements across and install the new buffer. -/
def XVec.reserve (v : XVec A) (space : Nat) : XVec A :=
  if v.capacity < space then
    { size := v.size, capacity := nextPowerOf2 space, data := some v.elems }
  else v

/-- Translation of `XVector::resize` (lines 773-899): growing past
`capacity_` reallocates to `nextPowerOf2(newSize)` and fills the new slots
with copies of `value` (by `fillTrivial` or element-wise construction);
growing within capacity fills in place; shrinking destroys the tail slots;
`size_ = newSize` at the end in every case. -/
def XVec.resize (v : XVec A) (newSize : Nat) (value : A) : XVec A :=
  if v.size < newSize then
    if v.capacity < newSize then
      { size := newSize, capacity := nextPowerOf2 newSize,
        data := some (v.elems ++ List.replicate (newSize - v.size) value) }
    else
      { v with size := newSize,
               data := some (v.elems ++ List.replicate (newSize - v.size) value) }
  else if newSize < v.size then
    { v with size := newSize, data := v.data.map (List.take newSize) }
  else
    { v with size := newSize }

/-- Translation of `XVector::shrink_to_fit` (lines 901-905): reallocate to
`nextPowerOf2(size_)` when that is smaller than the current capacity. -/
def XVec.shrinkToFit (v : XVec A) : XVec A :=
  if nextPowerOf2 v.size < v.capacity then v.reallocate false else v

/-- Translation of the copy assignment operator (lines 351-442) on its
success path, for the non-aliased case (the `this != &other` guard taken).
If `other.size_ <= capacity_` the buffer is reused: slots
`[0, min(size_, other.size_))` are copy-assigned and the rest of
`[0, other.size_)` copy-constructed, so the live prefix becomes `other`'s
elements; otherwise a fresh buffer of `other.capacity_` slots is filled
with copies of `other`'s elements and installed. -/
def XVec.copyAssign (self other : XVec A) : XVec A :=
  if other.size ≤ self.capacity then
    { size := other.size, capacity := self.capacity,
      data := self.data.map (fun _ => other.elems.take other.size) }
  else
    { size := other.size, capacity := other.capacity,
      data := some (other.elems.take other.size) }

/-- Translation of the copy assignment operator including its
self-assignment guard `if (this != &other)` (line 354): `isSelf` is the
truth value of `this == &other`, which the pointer-free embedding takes as
an input.  When the guard fires the operator returns `*this` unchanged. -/
def XVec.copyAssignOp (self other : XVec A) (isSelf : Bool) : XVec A :=
  if isSelf then self else self.copyAssign other

/-- Translation of the move assignment operator (lines 444-462) including
its self-assignment guard `if (this != &other)` (line 447): on the
non-aliased path `this` destroys its elements, releases its buffer and
steals `other`'s three fields, and `other` becomes the moved-from state;
on the aliased path both are unchanged.  The pair is
(new value of `this`, new value of `other`). -/
def XVec.moveAssignOp (self other : XVec A) (isSelf : Bool) : XVec A × XVec A :=
  if isSelf then (self, other)
  else ({ size := other.size, capacity := other.capacity, data := other.data },
        XVec.movedFrom)

/-- Translation of `XVector::at` (lines 658-672): throw `std::out_of_range`
(modelled as `Except.error ()`) when `idx >= size_`, else return the
element at slot `idx` (reading `data_[idx]`, which under well-formedness is
the `idx`-th live element). -/
def XVec.atIdx [Inhabited A] (v : XVec A) (idx : Nat) : Except Unit A :=
  if v.size ≤ idx then Except.error ()
  else Except.ok (v.elems.getD idx default)

/-- Model of `std::memcpy(dest + off, src, src.length * sizeof(T))` on a
buffer represented as a list: overwrite `src.length` slots of `dest`
starting at offset `off`. -/
def memcpyList (dest : List A) (off : Nat) (src : List A) : List A :=
  dest.take off ++ src ++ dest.drop (off + src.length)

/-- Translation of the `while (filled < count)` loop of
`XVector::fillTrivial` (lines 139-144): each pass copies
`chunk = min(filled, count - filled)` already-filled slots to offset
`filled`.  The loop runs at most `count` times because `filled` strictly
increases, so a fuel of `count` is enough; the fuel only bounds the
iteration count and is never exhausted on the source's inputs (proved in
`fillLoop_replicate`). -/
def fillLoop (value : A) : Nat → Nat → List A → Nat → List A
  | 0, _, dest, _ => dest
  | fuel + 1, count, dest, filled =>
    if 0 < filled ∧ filled < count then
      fillLoop value fuel count
        (memcpyList dest filled (dest.take (min filled (count - filled))))
        (filled + min filled (count - filled))
    else dest

/-- Translation of `XVector::fillTrivial` (lines 133-145): return on
`count == 0`, write one copy of `value` at slot 0, then duplicate the
already-filled prefix until `count` slots are filled. -/
def fillTrivial (dest : List A) (count : Nat) (value : A) : List A :=
  if count = 0 then dest
  else fillLoop value count count (memcpyList dest 0 [value]) 1

/-- Modelled from the spec: the naive element-by-element fill that
constructs a copy of `value` in each of the first `count` slots of the
destination buffer and touches nothing else ("all slots = copies of
value").  This is the comparison point of the refinement claim about
`fillTrivial`. -/
def fillNaive (dest : List A) (count : Nat) (value : A) : List A :=
  List.replicate count value ++ dest.drop count

/-- Loop invariant of `fillTrivial`: started on a buffer whose first
`filled` slots hold copies of `value`, the loop extends the filled prefix
to `count` and leaves the slots past `count` unchanged. -/
theorem fillLoop_replicate (value : A) :
    ∀ fuel count filled rest, 0 < filled → filled ≤ count →
    count ≤ filled + rest.length → count - filled ≤ fuel →
    fillLoop value fuel count (List.replicate filled value ++ rest) filled
      = List.replicate count value ++ rest.drop (count - filled) := by
  intro fuel
  induction fuel with
  | zero =>
    intro count filled rest h1 h2 h3 h4
    have hfc : filled = count := by omega
    subst hfc
    simp [fillLoop]
  | succ n ih =>
    intro count filled rest h1 h2 h3 h4
    by_cases hlt : filled < count
    · rw [fillLoop, if_pos ⟨h1, hlt⟩]
      have hchunk1 : 0 < min filled (count - filled) := by omega
      have hchunk2 : min filled (count - filled) ≤ filled := Nat.min_le_left _ _
      have hchunk3 : min filled (count - filled) ≤ count - filled := Nat.min_le_right _ _
      have htake : (List.replicate filled value ++ rest).take (min filled (count - filled))
          = List.replicate (min filled (count - filled)) value := by
        rw [List.take_append_of_le_length (by simp [hchunk2]), List.take_replicate]
        congr 1
        omega
      have hdtake : (List.replicate filled value ++ rest).take filled
          = List.replicate filled value := by
        rw [List.take_append_of_le_length (by simp)]
        simp
      have hddrop : (List.replicate filled value ++ rest).drop
            (filled + (List.replicate (min filled (count - filled)) value).length)
          = rest.drop (min filled (count - filled)) := by
        rw [List.drop_append_eq_append_drop]
        simp only [List.length_replicate, List.drop_replicate]
        rw [Nat.sub_eq_zero_of_le (Nat.le_add_right _ _), Nat.add_sub_cancel_left]
        simp
      have hcpy : memcpyList (List.replicate filled value ++ rest) filled
            (List.replicate (min filled (count - filled)) value)
          = List.replicate (filled + min filled (count - filled)) value
              ++ rest.drop (min filled (count - filled)) := by
        unfold memcpyList
        rw [hdtake, hddrop, List.replicate_add]
      rw [htake, hcpy, ih count (filled + min filled (count - filled)) _ (by omega) (by omega)
        (by simp only [List.length_drop]; omega) (by omega)]
      rw [List.drop_drop]
      have harith : min filled (count - filled) + (count - (filled + min filled (count - filled)))
          = count - filled := by omega
      rw [harith]
    · have hfc : filled = count := by omega
      subst hfc
      rw [fillLoop, if_neg (by omega)]
      simp

/-- Extensional equality of the doubling-copy fill with the naive fill: on
a destination buffer with at least `count` slots, `fillTrivial` makes the
first `count` slots copies of `value` and leaves the rest untouched. -/
theorem fillTrivial_eq_fillNaive (dest : List A) (count : Nat) (value : A)
    (h : count ≤ dest.length) : fillTrivial dest count value = fillNaive dest count value := by
  unfold fillTrivial fillNaive
  by_cases hc : count = 0
  · simp [hc]
  · rw [if_neg hc]
    rcases dest with _ | ⟨d0, drest⟩
    · simp at h
      omega
    · have hstart : memcpyList (d0 :: drest) 0 [value]
          = List.replicate 1 value ++ drest := by
        unfold memcpyList
        simp
      rw [hstart, fillLoop_replicate value count count 1 drest (by omega) (by omega)
        (by simp at h ⊢; omega) (by omega)]
      have hdrop : List.drop (count - 1) drest = List.drop count (d0 :: drest) := by
        rcases Nat.exists_eq_succ_of_ne_zero hc with ⟨k, rfl⟩
        simp
      rw [hdrop]

/-- Result of running the copy assignment with a fallible element copy
constructor: `finished v` when every element copy succeeded, and
`thrown v leaked` when a copy threw, where `v` is the field state of the
destination after the catch block ran and `leaked` lists the elements that
were copy-constructed in the destination but never destroyed. -/
inductive CopyAssignOutcome (A : Type) where
  | finished (v : XVec A)
  | thrown (v : XVec A) (leaked : List A)
deriving DecidableEq, Repr

/-- Helper: run the fallible copy `cp` left to right over `src`, returning
the successfully constructed copies and whether the whole run succeeded
(`false` means the construction of the element after the returned prefix
threw). -/
def tryCopyRun (cp : A → Except Unit A) : List A → List A × Bool
  | [] => ([], true)
  | x :: xs =>
    match cp x with
    | Except.error _ => ([], false)
    | Except.ok y =>
      match tryCopyRun cp xs with
      | (rest, ok) => (y :: rest, ok)

/-- Translation of the copy assignment operator (XVector.h lines 351-442)
for an element type whose copy constructor can throw (the general,
non-trivially-copyable, potentially-throwing paths), with the element copy
constructor modelled by `cp`.  In the buffer-reuse branch
(`other.size_ <= capacity_`, lines 356-395) slots `[0, min(size_,
other.size_))` are copy-assigned, the remaining slots of `[0, other.size_)`
are copy-constructed inside a try block, and the catch block (lines
380-390) destroys `data_[0 .. size_)`, calls `operator delete(data_)` and
rethrows, leaving `size_` and `capacity_` untouched, `data_` dangling
(modelled as `none`), and the newly constructed slots `[size_, i)` never
destroyed (returned as `leaked`).  In the fresh-buffer branch (lines
396-439) the catch block (lines 416-426) destroys exactly the constructed
prefix of the new buffer and releases it, leaving the container unchanged. -/
def XVec.copyAssignThrowing (self other : XVec A) (cp : A → Except Unit A) :
    CopyAssignOutcome A :=
  if other.size ≤ self.capacity then
    match tryCopyRun cp ((other.elems.take other.size).drop (min self.size other.size)) with
    | (built, true) =>
      CopyAssignOutcome.finished
        { size := other.size, capacity := self.capacity,
          data := self.data.map (fun _ =>
            (other.elems.take (min self.size other.size)
              ++ self.elems.drop (min self.size other.size) ++ built).take other.size) }
    | (built, false) =>
      CopyAssignOutcome.thrown
        { size := self.size, capacity := self.capacity, data := none } built
  else
    match tryCopyRun cp (other.elems.take other.size) with
    | (built, true) =>
      CopyAssignOutcome.finished
        { size := other.size, capacity := other.capacity, data := some built }
    | (_, false) => CopyAssignOutcome.thrown self []

/-- Invariant asserted by the spec: `length ≤ capacity` after every public
call, and `capacity` is a power of two whenever it is nonzero. -/
def lengthCapacityInvariant (v : XVec A) : Prop :=
  v.size ≤ v.capacity ∧ (v.capacity ≠ 0 → ∃ k, v.capacity = 2 ^ k)

/-- Strengthened induction invariant: the spec invariant together with the
bound that keeps every `size_t` computation of the source away from the
2 ^ 64 wrap (capacity never exceeds 2 ^ 63). -/
def XVec.inv (v : XVec A) : Prop :=
  v.size ≤ v.capacity ∧ v.capacity ≤ 2 ^ 63 ∧ (v.capacity ≠ 0 → ∃ k, v.capacity = 2 ^ k)

/-- States reachable through the public operations of `XVector`, restricted
to the overflow-free regime: every requested count stays at most `2 ^ 63`,
`append`/`emplace_back` are not applied at length `2 ^ 63`, and `pop_back`
is applied only to nonempty containers.  `swapOp` and the move operations
produce only states already covered (the exchanged states themselves, the
moved-to copy of the source fields, and `movedFrom`). -/
inductive XVec.reachable : XVec A → Prop
  | base : XVec.reachable XVec.defaultNew
  | moved : XVec.reachable XVec.movedFrom
  | mkC (count : Nat) (value : A) : count ≤ 2 ^ 63 → XVec.reachable (XVec.mkCount count value)
  | mkL (l : List A) : l.length ≤ 2 ^ 63 → XVec.reachable (XVec.fromList l)
  | copy {v : XVec A} : XVec.reachable v → XVec.reachable v.copyCtor
  | app {v : XVec A} (x : A) : XVec.reachable v → v.size < 2 ^ 63 →
      XVec.reachable (v.append x)
  | emp {v : XVec A} (x : A) : XVec.reachable v → v.size < 2 ^ 63 →
      XVec.reachable (v.emplaceBack x)
  | pop {v : XVec A} : XVec.reachable v → 0 < v.size → XVec.reachable v.popBack
  | cat {a b : XVec A} : XVec.reachable a → XVec.reachable b →
      a.size + b.size ≤ 2 ^ 63 → XVec.reachable (a.concatenate b)
  | clr {v : XVec A} : XVec.reachable v → XVec.reachable v.clear
  | res {v : XVec A} (space : Nat) : XVec.reachable v → space ≤ 2 ^ 63 →
      XVec.reachable (v.reserve space)
  | rsz {v : XVec A} (n : Nat) (x : A) : XVec.reachable v → n ≤ 2 ^ 63 →
      XVec.reachable (v.resize n x)
  | shr {v : XVec A} : XVec.reachable v → XVec.reachable v.shrinkToFit
  | asgn {a b : XVec A} : XVec.reachable a → XVec.reachable b →
      XVec.reachable (a.copyAssign b)

/-- Unfolding of `append` when `size_ >= capacity_` (the reallocating path). -/
theorem append_full {v : XVec A} (x : A) (hful : v.capacity ≤ v.size) :
    v.append x = { size := (v.size + 1) % USIZE,
                   capacity := if v.capacity = 0 then 1 else v.capacity * 2 % USIZE,
                   data := some (v.elems ++ [x]) } := by
  unfold XVec.append XVec.reallocate
  rw [if_pos hful]
  rfl

/-- Unfolding of `append` when there is spare capacity. -/
theorem append_spare {v : XVec A} (x : A) (hns : ¬ v.capacity ≤ v.size) :
    v.append x = { size := (v.size + 1) % USIZE, capacity := v.capacity,
                   data := some (v.elems ++ [x]) } := by
  unfold XVec.append
  rw [if_neg hns]

/-- The bodies of `emplace_back` and `append` coincide in the embedding. -/
theorem emplaceBack_eq_append (v : XVec A) (x : A) : v.emplaceBack x = v.append x := rfl

/-- Preservation of the strengthened invariant by the doubling/append path. -/
theorem inv_append {v : XVec A} (x : A) (h : v.inv) (hs : v.size < 2 ^ 63) :
    (v.append x).inv := by
  obtain ⟨h1, h2, h3⟩ := h
  have hb : (2 : Nat) ^ 63 < 2 ^ 64 := by norm_num
  by_cases hful : v.capacity ≤ v.size
  · have hsc : v.size = v.capacity := by omega
    by_cases hc0 : v.capacity = 0
    · have hs0 : v.size = 0 := by omega
      have hveq : v.append x = { size := 1, capacity := 1, data := some (v.elems ++ [x]) } := by
        rw [append_full x hful, hc0, hs0]
        simp [USIZE]
      rw [hveq]
      exact ⟨by norm_num, by norm_num, fun _ => ⟨0, rfl⟩⟩
    · obtain ⟨k, hk⟩ := h3 hc0
      have hklt : k ≤ 62 := by
        by_contra hcon
        push_neg at hcon
        have : (2 : Nat) ^ 63 ≤ 2 ^ k := Nat.pow_le_pow_right (by norm_num) (by omega)
        omega
      have hsucc : (2 : Nat) ^ k * 2 = 2 ^ (k + 1) := (pow_succ 2 k).symm
      have hlt64 : (2 : Nat) ^ (k + 1) ≤ 2 ^ 63 := Nat.pow_le_pow_right (by norm_num) (by omega)
      have hcap2 : v.capacity * 2 % USIZE = 2 ^ (k + 1) := by
        rw [hk, hsucc]
        apply Nat.mod_eq_of_lt
        unfold USIZE
        omega
      have hmod2 : (v.size + 1) % USIZE = v.size + 1 := by
        apply Nat.mod_eq_of_lt
        unfold USIZE
        omega
      have hvq : v.append x
          = { size := v.size + 1, capacity := 2 ^ (k + 1), data := some (v.elems ++ [x]) } := by
        rw [append_full x hful, if_neg hc0, hcap2, hmod2]
      rw [hvq]
      have hkpos : (0 : Nat) < 2 ^ k := Nat.pos_pow_of_pos _ (by norm_num)
      refine ⟨?_, hlt64, fun _ => ⟨k + 1, rfl⟩⟩
      show v.size + 1 ≤ 2 ^ (k + 1)
      omega
  · push_neg at hful
    have hmod2 : (v.size + 1) % USIZE = v.size + 1 := by
      apply Nat.mod_eq_of_lt
      unfold USIZE
      omega
    rw [append_spare x (by omega), hmod2]
    exact ⟨by simpa using hful, h2, h3⟩

/-- Convenience: on the non-wrapping range `nextPowerOf2` is at least its
argument. -/
theorem nextPowerOf2_ge {n : Nat} (h : n ≤ 2 ^ 63) : n ≤ nextPowerOf2 n :=
  (nextPowerOf2_correct n h).2.1

/-- Convenience: on the non-wrapping range `nextPowerOf2` returns a power
of two. -/
theorem nextPowerOf2_isPow {n : Nat} (h : n ≤ 2 ^ 63) : ∃ k, nextPowerOf2 n = 2 ^ k :=
  (nextPowerOf2_correct n h).1

/-- Convenience: on the non-wrapping range `nextPowerOf2` stays at most
`2 ^ 63`. -/
theorem nextPowerOf2_le {n : Nat} (h : n ≤ 2 ^ 63) : nextPowerOf2 n ≤ 2 ^ 63 :=
  (nextPowerOf2_correct n h).2.2 (2 ^ 63) ⟨63, rfl⟩ h

/-- Preservation of the strengthened invariant by `pop_back` on a nonempty
container. -/
theorem inv_popBack {v : XVec A} (h : v.inv) (hpos : 0 < v.size) : v.popBack.inv := by
  obtain ⟨h1, h2, h3⟩ := h
  have hne : v.size ≠ 0 := by omega
  unfold XVec.popBack
  exact ⟨by simp [hne]; omega, by simpa using h2, by simpa using h3⟩

/-- Preservation of the strengthened invariant by `concatenate` when the
combined length stays in the overflow-free regime. -/
theorem inv_concatenate {a b : XVec A} (ha : a.inv)
    (hsum : a.size + b.size ≤ 2 ^ 63) : (a.concatenate b).inv := by
  obtain ⟨h1, h2, h3⟩ := ha
  unfold XVec.concatenate
  by_cases hb0 : b.size = 0
  · rw [if_pos hb0]
    exact ⟨h1, h2, h3⟩
  · rw [if_neg hb0]
    have hmod : (a.size + b.size) % USIZE = a.size + b.size := by
      apply Nat.mod_eq_of_lt
      unfold USIZE
      have : (2 : Nat) ^ 63 < 2 ^ 64 := by norm_num
      omega
    by_cases hgrow : a.capacity < (a.size + b.size) % USIZE
    · rw [if_pos hgrow]
      exact ⟨by simp [hmod]; exact nextPowerOf2_ge hsum, by simp [hmod]; exact nextPowerOf2_le hsum,
        by simp [hmod]; intro hne; exact nextPowerOf2_isPow hsum⟩
    · rw [if_neg hgrow]
      rw [hmod] at hgrow
      exact ⟨by simp [hmod]; omega, by simpa using h2, by simpa using h3⟩

/-- Preservation of the strengthened invariant by `reserve` with a request
in the overflow-free regime. -/
theorem inv_reserve {v : XVec A} (space : Nat) (h : v.inv) (hsp : space ≤ 2 ^ 63) :
    (v.reserve space).inv := by
  obtain ⟨h1, h2, h3⟩ := h
  unfold XVec.reserve
  by_cases hgrow : v.capacity < space
  · rw [if_pos hgrow]
    have hge := nextPowerOf2_ge hsp
    exact ⟨by show v.size ≤ nextPowerOf2 space; omega, nextPowerOf2_le hsp,
      fun _ => nextPowerOf2_isPow hsp⟩
  · rw [if_neg hgrow]
    exact ⟨h1, h2, h3⟩

/-- Preservation of the strengthened invariant by `resize` with a request
in the overflow-free regime. -/
theorem inv_resize {v : XVec A} (n : Nat) (x : A) (h : v.inv) (hn : n ≤ 2 ^ 63) :
    (v.resize n x).inv := by
  obtain ⟨h1, h2, h3⟩ := h
  unfold XVec.resize
  by_cases hgrow : v.size < n
  · rw [if_pos hgrow]
    by_cases hcap : v.capacity < n
    · rw [if_pos hcap]
      exact ⟨nextPowerOf2_ge hn, nextPowerOf2_le hn, fun _ => nextPowerOf2_isPow hn⟩
    · rw [if_neg hcap]
      exact ⟨by show n ≤ v.capacity; omega, h2, h3⟩
  · rw [if_neg hgrow]
    by_cases hshrink : n < v.size
    · rw [if_pos hshrink]
      exact ⟨by show n ≤ v.capacity; omega, h2, h3⟩
    · rw [if_neg hshrink]
      exact ⟨by show n ≤ v.capacity; omega, h2, h3⟩

/-- Preservation of the strengthened invariant by `shrink_to_fit`. -/
theorem inv_shrinkToFit {v : XVec A} (h : v.inv) : v.shrinkToFit.inv := by
  obtain ⟨h1, h2, h3⟩ := h
  unfold XVec.shrinkToFit XVec.reallocate
  by_cases hred : nextPowerOf2 v.size < v.capacity
  · rw [if_pos hred]
    have hs63 : v.size ≤ 2 ^ 63 := by omega
    exact ⟨by simp; exact nextPowerOf2_ge hs63, by simp; omega,
      by simp; intro; exact nextPowerOf2_isPow hs63⟩
  · rw [if_neg hred]
    exact ⟨h1, h2, h3⟩

/-- Preservation of the strengthened invariant by non-aliased copy
assignment (both operands invariant-respecting). -/
theorem inv_copyAssign {a b : XVec A} (ha : a.inv) (hb : b.inv) :
    (a.copyAssign b).inv := by
  obtain ⟨ha1, ha2, ha3⟩ := ha
  obtain ⟨hb1, hb2, hb3⟩ := hb
  unfold XVec.copyAssign
  by_cases hfit : b.size ≤ a.capacity
  · rw [if_pos hfit]
    exact ⟨hfit, ha2, ha3⟩
  · rw [if_neg hfit]
    exact ⟨hb1, hb2, hb3⟩

/-- Preservation of the strengthened invariant by the remaining reachable
state formers, and the main induction: every state reachable through the
bounded public operations satisfies the strengthened invariant. -/
theorem reachable_inv {v : XVec A} (h : v.reachable) : v.inv := by
  induction h with
  | base => exact ⟨by norm_num [XVec.defaultNew], by norm_num [XVec.defaultNew], fun _ => ⟨0, rfl⟩⟩
  | moved => exact ⟨Nat.le_refl 0, by norm_num [XVec.movedFrom], fun hc => absurd rfl hc⟩
  | mkC count value hcount =>
    exact ⟨nextPowerOf2_ge hcount, nextPowerOf2_le hcount, fun _ => nextPowerOf2_isPow hcount⟩
  | mkL l hlen =>
    exact ⟨nextPowerOf2_ge hlen, nextPowerOf2_le hlen, fun _ => nextPowerOf2_isPow hlen⟩
  | copy hv ih => exact ⟨ih.1, ih.2.1, ih.2.2⟩
  | app x hv hs ih => exact inv_append x ih hs
  | emp x hv hs ih => rw [emplaceBack_eq_append]; exact inv_append x ih hs
  | pop hv hpos ih => exact inv_popBack ih hpos
  | cat hva hvb hsum iha ihb => exact inv_concatenate iha hsum
  | clr hv ih => exact ⟨Nat.zero_le _, ih.2.1, ih.2.2⟩
  | res space hv hsp ih => exact inv_reserve space ih hsp
  | rsz n x hv hn ih => exact inv_resize n x ih hn
  | shr hv ih => exact inv_shrinkToFit ih
  | asgn hva hvb iha ihb => exact inv_copyAssign iha ihb

/-- Claim C7 counterexample: `nextPowerOf2` applied to the `size_t` value
`2 ^ 63 + 1` returns 0, which is not a power of two greater than or equal
to its argument, so the unrestricted claim "for every unsigned integer n,
next_pow2(n) returns the smallest power of two that is ≥ n" is false. -/
theorem claim7_counterexample :
    nextPowerOf2 (2 ^ 63 + 1) = 0 ∧ ¬ 2 ^ 63 + 1 ≤ nextPowerOf2 (2 ^ 63 + 1) := by
  constructor
  · decide
  · decide

/-- Claim C7, amended: for every `n ≤ 2 ^ 63`, `nextPowerOf2 n` is the
smallest power of two that is at least `n`, with the convention
`nextPowerOf2 0 = nextPowerOf2 1 = 1`; above `2 ^ 63` the computation
wraps (see claim C10). -/
theorem claim7_theorem (n : Nat) (h : n ≤ 2 ^ 63) :
    nextPowerOf2 0 = 1 ∧ nextPowerOf2 1 = 1 ∧
    (∃ k, nextPowerOf2 n = 2 ^ k) ∧ n ≤ nextPowerOf2 n ∧
      ∀ m, (∃ k, m = 2 ^ k) → n ≤ m → nextPowerOf2 n ≤ m :=
  ⟨rfl, rfl, (nextPowerOf2_correct n h).1, (nextPowerOf2_correct n h).2.1,
    (nextPowerOf2_correct n h).2.2⟩

/-- Witness for claim C7 at `n = 5`: the hypothesis `5 ≤ 2 ^ 63` holds and
the amended statement follows from the theorem. -/
theorem claim7_witness :
    (5 : Nat) ≤ 2 ^ 63 ∧ (nextPowerOf2 0 = 1 ∧ nextPowerOf2 1 = 1 ∧
    (∃ k, nextPowerOf2 5 = 2 ^ k) ∧ 5 ≤ nextPowerOf2 5 ∧
      ∀ m, (∃ k, m = 2 ^ k) → 5 ≤ m → nextPowerOf2 5 ≤ m) :=
  ⟨by norm_num, claim7_theorem 5 (by norm_num)⟩

/-- Claim C10: with the 64-bit `size_t`, for every `n` with
`2 ^ 63 < n ≤ 2 ^ 64 - 1` the bit-smearing computation of `nextPowerOf2`
produces `2 ^ 64 - 1` and the final increment wraps to 0, so the computed
target capacity is 0 rather than a power of two at least `n`. -/
theorem claim10_theorem (n : Nat) (h1 : 2 ^ 63 < n) (h2 : n ≤ 2 ^ 64 - 1) :
    nextPowerOf2 n = 0 := by
  have hlog : Nat.log 2 (n - 1) = 63 :=
    Nat.log_eq_of_pow_le_of_lt_pow (by omega) (by omega)
  have hsm := smear64_eq (m := n - 1) (by omega) (by omega)
  rw [hlog] at hsm
  unfold nextPowerOf2
  rw [if_neg (by omega), hsm]
  norm_num [USIZE]

/-- Witness for claim C10 at `n = 2 ^ 64 - 1`. -/
theorem claim10_witness :
    2 ^ 63 < 2 ^ 64 - 1 ∧ nextPowerOf2 (2 ^ 64 - 1) = 0 :=
  ⟨by norm_num, claim10_theorem (2 ^ 64 - 1) (by norm_num) (by norm_num)⟩

/-- Claim C2 counterexample: starting from a default-constructed container,
appending one element and then calling `reserve(2 ^ 63 + 1)` drives the
computed new capacity through the wrapped `nextPowerOf2` to 0 while the
length stays 1, so `length ≤ capacity` fails after a public call and the
unrestricted invariant claim is false. -/
theorem claim2_counterexample :
    ¬ lengthCapacityInvariant ((XVec.defaultNew.append (7 : Nat)).reserve (2 ^ 63 + 1)) := by
  intro h
  have hsz : ((XVec.defaultNew.append (7 : Nat)).reserve (2 ^ 63 + 1)).size = 1 := by decide
  have hcap : ((XVec.defaultNew.append (7 : Nat)).reserve (2 ^ 63 + 1)).capacity = 0 := by decide
  have hle := h.1
  rw [hsz, hcap] at hle
  omega

/-- Claim C2, amended: along every sequence of public operations on their
success paths in which every count argument stays at most `2 ^ 63`,
`append`/`emplace_back` are not applied at length `2 ^ 63`, and `pop_back`
is applied only to nonempty containers, every reachable state satisfies
`length ≤ capacity`, with `capacity` a power of two whenever it is nonzero;
without these bounds the invariant fails (see the counterexample). -/
theorem claim2_theorem {A : Type} (v : XVec A) (h : v.reachable) :
    lengthCapacityInvariant v := by
  have hi := reachable_inv h
  exact ⟨hi.1, hi.2.2⟩

/-- Witness for claim C2 at the default-constructed container. -/
theorem claim2_witness : lengthCapacityInvariant (XVec.defaultNew : XVec Nat) :=
  claim2_theorem XVec.defaultNew XVec.reachable.base

/-- Claim C3 counterexample: `pop_back` on an empty container is not a
no-op: the unguarded `--size_` of the release build wraps the length to
`2 ^ 64 - 1`, changing the state. -/
theorem claim3_counterexample :
    (XVec.defaultNew : XVec Nat).popBack ≠ XVec.defaultNew := by decide

/-- Claim C3, amended: `pop_back` with `length > 0` destroys the element in
slot `length - 1` and decrements the length by one, leaving capacity
unchanged; but `pop_back` with `length == 0` is not a no-op: it leaves
capacity and buffer unchanged while the length wraps to `2 ^ 64 - 1`
(in debug builds an assertion aborts instead). -/
theorem claim3_theorem (v : XVec A) :
    (0 < v.size →
      v.popBack = { v with size := v.size - 1, data := v.data.map List.dropLast })
    ∧ (v.size = 0 → v.popBack.size = USIZE - 1 ∧ v.popBack.capacity = v.capacity
        ∧ v.popBack.data = v.data) := by
  constructor
  · intro hpos
    have hne : v.size ≠ 0 := by omega
    simp [XVec.popBack, hne]
  · intro h0
    simp [XVec.popBack, h0]

/-- Witness for claim C3: a two-element container pops to a one-element
container, and the empty container's length wraps. -/
theorem claim3_witness :
    ((⟨2, 4, some [7, 8]⟩ : XVec Nat).popBack = ⟨1, 4, some [7]⟩)
    ∧ (⟨0, 1, some ([] : List Nat)⟩ : XVec Nat).popBack.size = USIZE - 1 := by
  constructor
  · have h := (claim3_theorem (⟨2, 4, some [7, 8]⟩ : XVec Nat)).1 (by norm_num)
    rw [h]
    rfl
  · exact ((claim3_theorem (⟨0, 1, some ([] : List Nat)⟩ : XVec Nat)).2 rfl).1

/-- Claim C4: for every well-formed container and every index, `at(idx)`
reports the out-of-range failure exactly when `idx ≥ length`, otherwise it
returns the element in slot `idx`; in particular `at(length)` and
`at(length + 1)` both fail, including at length 0. -/
theorem claim4_theorem {A : Type} [Inhabited A] (v : XVec A) (idx : Nat) (hwf : v.wf) :
    ((v.atIdx idx = Except.error ()) ↔ v.size ≤ idx)
    ∧ (idx < v.size →
        ∃ hh : idx < v.elems.length, v.atIdx idx = Except.ok (v.elems.get ⟨idx, hh⟩))
    ∧ v.atIdx v.size = Except.error ()
    ∧ v.atIdx (v.size + 1) = Except.error () := by
  unfold XVec.wf at hwf
  refine ⟨?_, ?_, ?_, ?_⟩
  · unfold XVec.atIdx
    by_cases hle : v.size ≤ idx
    · simp [hle]
    · simp [hle]
  · intro hlt
    have hh : idx < v.elems.length := by omega
    refine ⟨hh, ?_⟩
    unfold XVec.atIdx
    rw [if_neg (by omega)]
    simp [List.getD_eq_getElem?_getD, List.getElem?_eq_getElem hh]
  · unfold XVec.atIdx
    rw [if_pos (Nat.le_refl _)]
  · unfold XVec.atIdx
    rw [if_pos (by omega)]

/-- Witness for claim C4 on the container `[10, 20]` at index 1. -/
theorem claim4_witness :
    (⟨2, 4, some [10, 20]⟩ : XVec Nat).wf ∧
    ((((⟨2, 4, some [10, 20]⟩ : XVec Nat).atIdx 1 = Except.error ()) ↔ (2 : Nat) ≤ 1)
    ∧ ((1 : Nat) < 2 →
        ∃ hh : 1 < (⟨2, 4, some [10, 20]⟩ : XVec Nat).elems.length,
          (⟨2, 4, some [10, 20]⟩ : XVec Nat).atIdx 1
            = Except.ok ((⟨2, 4, some [10, 20]⟩ : XVec Nat).elems.get ⟨1, hh⟩))
    ∧ (⟨2, 4, some [10, 20]⟩ : XVec Nat).atIdx 2 = Except.error ()
    ∧ (⟨2, 4, some [10, 20]⟩ : XVec Nat).atIdx (2 + 1) = Except.error ()) :=
  ⟨by decide, claim4_theorem (⟨2, 4, some [10, 20]⟩ : XVec Nat) 1 (by decide)⟩


/-- Claim C5 counterexample: at `length == capacity == 2 ^ 63` the doubling
`capacity_ * 2` wraps to 0 in `size_t`, so append does not exactly double
the capacity there and the unrestricted claim is false. -/
theorem claim5_counterexample :
    (⟨2 ^ 63, 2 ^ 63, some (List.replicate (2 ^ 63) (0 : Nat))⟩ : XVec Nat).wf
    ∧ (⟨2 ^ 63, 2 ^ 63, some (List.replicate (2 ^ 63) (0 : Nat))⟩ : XVec Nat).size
        = (⟨2 ^ 63, 2 ^ 63, some (List.replicate (2 ^ 63) (0 : Nat))⟩ : XVec Nat).capacity
    ∧ ((⟨2 ^ 63, 2 ^ 63, some (List.replicate (2 ^ 63) (0 : Nat))⟩ : XVec Nat).append 0).capacity
        ≠ 2 * (⟨2 ^ 63, 2 ^ 63, some (List.replicate (2 ^ 63) (0 : Nat))⟩ : XVec Nat).capacity := by
  refine ⟨?_, rfl, ?_⟩
  · show (List.replicate (2 ^ 63) (0 : Nat)).length = 2 ^ 63
    exact List.length_replicate _ _
  · rw [append_full 0 (Nat.le_refl _)]
    show (if (2 : Nat) ^ 63 = 0 then 1 else 2 ^ 63 * 2 % USIZE) ≠ 2 * 2 ^ 63
    norm_num [USIZE]

/-- Claim C5, amended: for every well-formed container with
`length == capacity < 2 ^ 63`, append exactly doubles the capacity (or
sets it to 1 from capacity 0) and never jumps to any other value, the new
element lands in the slot equal to the old length, the length grows by
one, and all prior elements are unchanged; at capacity `2 ^ 63` the
doubling instead wraps to 0. -/
theorem claim5_theorem {A : Type} (v : XVec A) (x : A) (hwf : v.wf)
    (hfull : v.size = v.capacity) (hcap : v.capacity < 2 ^ 63) :
    (v.append x).capacity = (if v.capacity = 0 then 1 else 2 * v.capacity)
    ∧ (v.append x).size = v.size + 1
    ∧ (v.append x).elems = v.elems ++ [x]
    ∧ (v.append x).elems.take v.size = v.elems := by
  have hful : v.capacity ≤ v.size := by omega
  have hb : (2 : Nat) ^ 63 < 2 ^ 64 := by norm_num
  rw [append_full x hful]
  have hmod2 : (v.size + 1) % USIZE = v.size + 1 := by
    apply Nat.mod_eq_of_lt
    unfold USIZE
    omega
  refine ⟨?_, by simp [hmod2], by simp [XVec.elems], ?_⟩
  · by_cases hc0 : v.capacity = 0
    · simp [hc0]
    · rw [if_neg hc0, if_neg hc0]
      have hm : v.capacity * 2 % USIZE = v.capacity * 2 :=
        Nat.mod_eq_of_lt (by unfold USIZE; omega)
      rw [hm]
      ring
  · show ((some (v.elems ++ [x])).getD []).take v.size = v.elems
    unfold XVec.wf at hwf
    simp only [Option.getD_some]
    rw [List.take_append_of_le_length (by omega)]
    exact List.take_of_length_le (by omega)

/-- Witness for claim C5 on the full container `[4, 5]` with capacity 2. -/
theorem claim5_witness :
    (⟨2, 2, some [4, 5]⟩ : XVec Nat).wf ∧ (2 : Nat) = 2 ∧ (2 : Nat) < 2 ^ 63 ∧
    (((⟨2, 2, some [4, 5]⟩ : XVec Nat).append 9).capacity = (if (2 : Nat) = 0 then 1 else 2 * 2)
    ∧ ((⟨2, 2, some [4, 5]⟩ : XVec Nat).append 9).size = 2 + 1
    ∧ ((⟨2, 2, some [4, 5]⟩ : XVec Nat).append 9).elems
        = (⟨2, 2, some [4, 5]⟩ : XVec Nat).elems ++ [9]
    ∧ ((⟨2, 2, some [4, 5]⟩ : XVec Nat).append 9).elems.take 2
        = (⟨2, 2, some [4, 5]⟩ : XVec Nat).elems) :=
  ⟨by decide, rfl, by norm_num,
    claim5_theorem (⟨2, 2, some [4, 5]⟩ : XVec Nat) 9 (by decide) rfl (by norm_num)⟩

/-- Projection helper: the live elements of an explicitly built state. -/
theorem XVec.elems_mk (s c : Nat) (l : List A) : (⟨s, c, some l⟩ : XVec A).elems = l := rfl

/-- Claim C6 counterexample: for two well-formed containers of length
`2 ^ 63` each, `size_ + other.size_` wraps to 0, the in-place branch is
taken, and the resulting length is 0 instead of the combined length, so
the unrestricted concatenate claim is false. -/
theorem claim6_counterexample :
    (⟨2 ^ 63, 2 ^ 63, some (List.replicate (2 ^ 63) (0 : Nat))⟩ : XVec Nat).wf
    ∧ (⟨2 ^ 63, 2 ^ 63, some (List.replicate (2 ^ 63) (1 : Nat))⟩ : XVec Nat).wf
    ∧ ((⟨2 ^ 63, 2 ^ 63, some (List.replicate (2 ^ 63) (0 : Nat))⟩ : XVec Nat).concatenate
          ⟨2 ^ 63, 2 ^ 63, some (List.replicate (2 ^ 63) (1 : Nat))⟩).size
        ≠ 2 ^ 63 + 2 ^ 63 := by
  refine ⟨?_, ?_, ?_⟩
  · show (List.replicate (2 ^ 63) (0 : Nat)).length = 2 ^ 63
    exact List.length_replicate _ _
  · show (List.replicate (2 ^ 63) (1 : Nat)).length = 2 ^ 63
    exact List.length_replicate _ _
  · have hb0 : ¬ ((⟨2 ^ 63, 2 ^ 63, some (List.replicate (2 ^ 63) (1 : Nat))⟩ : XVec Nat).size
        = 0) := by
      show ¬ ((2 : Nat) ^ 63 = 0)
      norm_num
    unfold XVec.concatenate
    rw [if_neg hb0]
    have hcap : ¬ ((⟨2 ^ 63, 2 ^ 63, some (List.replicate (2 ^ 63) (0 : Nat))⟩ : XVec Nat).capacity
        < ((⟨2 ^ 63, 2 ^ 63, some (List.replicate (2 ^ 63) (0 : Nat))⟩ : XVec Nat).size
          + (⟨2 ^ 63, 2 ^ 63, some (List.replicate (2 ^ 63) (1 : Nat))⟩ : XVec Nat).size)
            % USIZE) := by
      show ¬ ((2 : Nat) ^ 63 < ((2 : Nat) ^ 63 + 2 ^ 63) % USIZE)
      norm_num [USIZE]
    rw [if_neg hcap]
    show ((2 : Nat) ^ 63 + 2 ^ 63) % USIZE ≠ 2 ^ 63 + 2 ^ 63
    norm_num [USIZE]

/-- Claim C6, amended: for all well-formed containers `a` and `b` (distinct
objects; `b` is taken by constant reference and never mutated) with
`a.length ≤ a.capacity` and `a.length + b.length ≤ 2 ^ 63`,
`concatenate(a, b)` yields exactly `a`'s elements followed by `b`'s in
order with `length = a.length + b.length`, the capacity becomes
`next_pow2(a.length + b.length)` in a single reallocation exactly when the
combined length exceeds `a`'s capacity (else it is unchanged), and
concatenating with an empty `b` is a no-op; for combined lengths past
`2 ^ 63` the `size_t` arithmetic wraps and the result is wrong (see the
counterexample). -/
theorem claim6_theorem {A : Type} (a b : XVec A) (hwa : a.wf) (hwb : b.wf)
    (hinv : a.size ≤ a.capacity) (hsum : a.size + b.size ≤ 2 ^ 63) :
    (a.concatenate b).elems = a.elems ++ b.elems
    ∧ (a.concatenate b).size = a.size + b.size
    ∧ (a.concatenate b).capacity =
        (if a.capacity < a.size + b.size then nextPowerOf2 (a.size + b.size) else a.capacity)
    ∧ (b.size = 0 → a.concatenate b = a) := by
  unfold XVec.wf at hwa hwb
  have hmod : (a.size + b.size) % USIZE = a.size + b.size := by
    apply Nat.mod_eq_of_lt
    unfold USIZE
    have hpows : (2 : Nat) ^ 63 < 2 ^ 64 := by norm_num
    omega
  unfold XVec.concatenate
  by_cases hb0 : b.size = 0
  · rw [if_pos hb0]
    have hbe : b.elems = [] := List.eq_nil_of_length_eq_zero (by omega)
    refine ⟨by rw [hbe, List.append_nil], by omega, ?_, fun _ => rfl⟩
    rw [if_neg (by omega)]
  · rw [if_neg hb0]
    have htk : b.elems.take ((a.size + b.size) % USIZE - a.size) = b.elems := by
      rw [hmod]
      have h1 : a.size + b.size - a.size = b.size := by omega
      rw [h1, ← hwb]
      exact List.take_length _
    have hlive : (a.elems ++ b.elems.take ((a.size + b.size) % USIZE - a.size)).take
        ((a.size + b.size) % USIZE) = a.elems ++ b.elems := by
      rw [htk, hmod]
      apply List.take_of_length_le
      rw [List.length_append]
      omega
    by_cases hgrow : a.capacity < (a.size + b.size) % USIZE
    · rw [if_pos hgrow]
      rw [hmod] at hgrow
      refine ⟨?_, ?_, ?_, fun hb => absurd hb hb0⟩
      · rw [XVec.elems_mk]
        exact hlive
      · exact hmod
      · show nextPowerOf2 ((a.size + b.size) % USIZE)
            = if a.capacity < a.size + b.size then nextPowerOf2 (a.size + b.size) else a.capacity
        rw [hmod, if_pos hgrow]
    · rw [if_neg hgrow]
      rw [hmod] at hgrow
      refine ⟨?_, ?_, ?_, fun hb => absurd hb hb0⟩
      · rw [XVec.elems_mk]
        exact hlive
      · exact hmod
      · show a.capacity
            = if a.capacity < a.size + b.size then nextPowerOf2 (a.size + b.size) else a.capacity
        rw [if_neg hgrow]

/-- Witness for claim C6 on `[1, 2]` concatenated with `[3]`. -/
theorem claim6_witness :
    (⟨2, 2, some [1, 2]⟩ : XVec Nat).wf ∧ (⟨1, 1, some [3]⟩ : XVec Nat).wf ∧
    (((⟨2, 2, some [1, 2]⟩ : XVec Nat).concatenate ⟨1, 1, some [3]⟩).elems
        = (⟨2, 2, some [1, 2]⟩ : XVec Nat).elems ++ (⟨1, 1, some [3]⟩ : XVec Nat).elems
    ∧ ((⟨2, 2, some [1, 2]⟩ : XVec Nat).concatenate ⟨1, 1, some [3]⟩).size = 2 + 1
    ∧ ((⟨2, 2, some [1, 2]⟩ : XVec Nat).concatenate ⟨1, 1, some [3]⟩).capacity
        = (if (2 : Nat) < 2 + 1 then nextPowerOf2 (2 + 1) else 2)
    ∧ ((1 : Nat) = 0 → (⟨2, 2, some [1, 2]⟩ : XVec Nat).concatenate ⟨1, 1, some [3]⟩
        = ⟨2, 2, some [1, 2]⟩)) :=
  ⟨by decide, by decide,
    claim6_theorem (⟨2, 2, some [1, 2]⟩ : XVec Nat) ⟨1, 1, some [3]⟩ (by decide) (by decide)
      (by norm_num) (by norm_num)⟩

/-- Claim C8: on every destination buffer with at least `count` slots and
every value, the doubling-copy fill (`fillTrivial`, one write then
repeated duplication of the filled prefix) is extensionally equal to the
naive element-by-element fill: all `count` slots end up equal to the value
and the rest of the buffer is untouched; construct-with-count accordingly
makes all its slots copies of the value. -/
theorem claim8_theorem {A : Type} (dest : List A) (count : Nat) (value : A)
    (h : count ≤ dest.length) :
    fillTrivial dest count value = fillNaive dest count value
    ∧ (fillTrivial dest count value).take count = List.replicate count value
    ∧ (fillTrivial dest count value).drop count = dest.drop count
    ∧ ∀ w : A, (XVec.mkCount count w).elems = List.replicate count w := by
  have he := fillTrivial_eq_fillNaive dest count value h
  refine ⟨he, ?_, ?_, fun w => rfl⟩
  · rw [he]
    unfold fillNaive
    rw [List.take_append_of_le_length (by simp), List.take_replicate]
    simp
  · rw [he]
    unfold fillNaive
    rw [List.drop_append_eq_append_drop]
    simp

/-- Witness for claim C8 on a four-slot buffer filled with three copies. -/
theorem claim8_witness :
    (3 : Nat) ≤ ([9, 9, 9, 9] : List Nat).length ∧
    (fillTrivial [9, 9, 9, 9] 3 (5 : Nat) = fillNaive [9, 9, 9, 9] 3 5
    ∧ (fillTrivial [9, 9, 9, 9] 3 (5 : Nat)).take 3 = List.replicate 3 5
    ∧ (fillTrivial [9, 9, 9, 9] 3 (5 : Nat)).drop 3 = ([9, 9, 9, 9] : List Nat).drop 3
    ∧ ∀ w : Nat, (XVec.mkCount 3 w).elems = List.replicate 3 w) :=
  ⟨by norm_num, claim8_theorem [9, 9, 9, 9] 3 5 (by norm_num)⟩

/-- Claim C9: thanks to the `this != &other` guards, copy-assigning a
container to itself and move-assigning a container to itself are both
no-ops: length, capacity and every element value are unchanged (for the
move the pair is the values of `*this` and of `other`, both the original
state). -/
theorem claim9_theorem {A : Type} (v : XVec A) :
    v.copyAssignOp v true = v ∧ v.moveAssignOp v true = (v, v) :=
  ⟨rfl, rfl⟩

/-- Fallible element copy used to exercise the failure path of the copy
assignment: copying the value 20 throws, every other copy succeeds. -/
def failOnTwenty : Nat → Except Unit Nat :=
  fun x => if x = 20 then Except.error () else Except.ok x

/-- Claim C1 is violated by the buffer-reuse branch of the copy assignment
operator: assigning the two-element source `[10, 20]` into an empty
destination of capacity 2, with an element type whose copy constructor
throws on the second element, runs the catch block of XVector.h lines
380-390, which destroys `data_[0 .. size_)` instead of the newly
constructed slots, frees the destination's buffer, and rethrows.  The
destination is left with its old `size_`/`capacity_` but a dangling
(freed) buffer rather than its pre-operation state, and the element copy
already constructed in slot 0 (the value 10) is never destroyed.  This
theorem evaluates the translated operator at that failing input. -/
theorem claim1_theorem :
    (⟨0, 2, some ([] : List Nat)⟩ : XVec Nat).copyAssignThrowing ⟨2, 2, some [10, 20]⟩
        failOnTwenty
      = CopyAssignOutcome.thrown ⟨0, 2, none⟩ [10]
    ∧ (⟨0, 2, (none : Option (List Nat))⟩ : XVec Nat) ≠ ⟨0, 2, some []⟩
    ∧ ([10] : List Nat) ≠ [] := by
  refine ⟨by decide, by decide, by decide⟩
